import Mathlib

set_option linter.unusedSectionVars false
set_option linter.unusedVariables false

/-!
Verification of the eigenpod proof-generation CLI against its specification.

The Go source is shallowly embedded: byte arrays become `List Nat`
(each entry one byte), `uint64` values become `Nat` with the explicit
bound `2^64`, nil-able pointers become `Option`, and the effectful
command bodies become pure trace/outcome functions over an explicit
environment that stands for the network collaborators.
-/

namespace EigenpodProofs

/-- A beacon-chain validator, as read from the beacon state
(`phase0.Validator`): its 48-byte public key and 32-byte withdrawal
credentials, each embedded as a list of bytes. -/
structure Validator where
  publicKey : List Nat
  withdrawalCredentials : List Nat
  deriving DecidableEq

/-- `ValidatorWithIndex` from the CLI: a validator paired with its index
in the beacon state's validator list. -/
structure ValidatorWithIndex where
  validator : Validator
  index : Nat
  deriving DecidableEq

/-- The loop body of `findAllValidatorsForEigenpod` (src/cli/main.go):
walks the validator list carrying the running index `i`, skipping `nil`
entries and entries whose withdrawal-credential first byte is not `1`,
and keeping entries whose credential bytes from position 12 on equal the
eigenpod address bytes. -/
def scanLoop (eigenpodAddressBytes : List Nat) :
    List (Option Validator) → Nat → List ValidatorWithIndex
  | [], _ => []
  | ov :: rest, i =>
    match ov with
    | none => scanLoop eigenpodAddressBytes rest (i + 1)
    | some validator =>
      if validator.withdrawalCredentials.getD 0 0 = 1 ∧
          validator.withdrawalCredentials.drop 12 = eigenpodAddressBytes then
        ⟨validator, i⟩ :: scanLoop eigenpodAddressBytes rest (i + 1)
      else
        scanLoop eigenpodAddressBytes rest (i + 1)

/-- `findAllValidatorsForEigenpod` (src/cli/main.go): linear scan of the
beacon state's validators starting at index 0. -/
def findAllValidatorsForEigenpod (eigenpodAddressBytes : List Nat)
    (allValidators : List (Option Validator)) : List ValidatorWithIndex :=
  scanLoop eigenpodAddressBytes allValidators 0

/-- The matching predicate of the scan: first credential byte is `1` and
the credential bytes from position 12 on (the last 20 bytes of a 32-byte
credential) equal the pod address bytes. -/
def credsMatch (eigenpodAddressBytes : List Nat) (v : Validator) : Prop :=
  v.withdrawalCredentials.head? = some 1 ∧
    v.withdrawalCredentials.drop 12 = eigenpodAddressBytes

instance (a : List Nat) (v : Validator) : Decidable (credsMatch a v) := by
  unfold credsMatch; infer_instance

lemma getD_zero_eq_one_iff (l : List Nat) :
    l.getD 0 0 = 1 ↔ l.head? = some 1 := by
  cases l <;> simp [List.getD]

lemma mem_scanLoop (a : List Nat) :
    ∀ (vs : List (Option Validator)) (i0 : Nat) (x : ValidatorWithIndex),
      x ∈ scanLoop a vs i0 ↔
        ∃ j, vs.get? j = some (some x.validator) ∧ credsMatch a x.validator ∧
          x.index = i0 + j := by
  intro vs
  induction vs with
  | nil => intro i0 x; simp [scanLoop]
  | cons ov rest ih =>
    intro i0 x
    cases ov with
    | none =>
      simp only [scanLoop, ih]
      constructor
      · rintro ⟨j, hj, hm, hx⟩
        exact ⟨j + 1, by simpa using hj, hm, by omega⟩
      · rintro ⟨j, hj, hm, hx⟩
        cases j with
        | zero => simp at hj
        | succ j => exact ⟨j, by simpa using hj, hm, by omega⟩
    | some v =>
      by_cases hv : v.withdrawalCredentials.getD 0 0 = 1 ∧
          v.withdrawalCredentials.drop 12 = a
      · have hvm : credsMatch a v := ⟨(getD_zero_eq_one_iff _).mp hv.1, hv.2⟩
        simp only [scanLoop, if_pos hv, List.mem_cons, ih]
        constructor
        · rintro (rfl | ⟨j, hj, hm, hx⟩)
          · exact ⟨0, by simp, hvm, by simp⟩
          · exact ⟨j + 1, by simpa using hj, hm, by omega⟩
        · rintro ⟨j, hj, hm, hx⟩
          cases j with
          | zero =>
            left
            have hveq : v = x.validator := by simpa using hj
            have hieq : x.index = i0 := by simpa using hx
            cases x with
            | mk xv xi => simp_all
          | succ j => exact Or.inr ⟨j, by simpa using hj, hm, by omega⟩
      · have hvm : ¬ credsMatch a v := by
          intro hc
          exact hv ⟨(getD_zero_eq_one_iff _).mpr hc.1, hc.2⟩
        simp only [scanLoop, if_neg hv, ih]
        constructor
        · rintro ⟨j, hj, hm, hx⟩
          exact ⟨j + 1, by simpa using hj, hm, by omega⟩
        · rintro ⟨j, hj, hm, hx⟩
          cases j with
          | zero =>
            exfalso
            have hveq : v = x.validator := by simpa using hj
            rw [← hveq] at hm
            exact hvm hm
          | succ j => exact ⟨j, by simpa using hj, hm, by omega⟩

lemma scanLoop_index_lb (a : List Nat) :
    ∀ (vs : List (Option Validator)) (i0 : Nat) (x : ValidatorWithIndex),
      x ∈ scanLoop a vs i0 → i0 ≤ x.index := by
  intro vs i0 x hx
  obtain ⟨j, -, -, hj⟩ := (mem_scanLoop a vs i0 x).mp hx
  omega

lemma scanLoop_sorted (a : List Nat) :
    ∀ (vs : List (Option Validator)) (i0 : Nat),
      (scanLoop a vs i0).Pairwise (fun p q => p.index < q.index) := by
  intro vs
  induction vs with
  | nil => intro i0; simp [scanLoop]
  | cons ov rest ih =>
    intro i0
    cases ov with
    | none => simpa [scanLoop] using ih (i0 + 1)
    | some v =>
      by_cases hv : v.withdrawalCredentials.getD 0 0 = 1 ∧
          v.withdrawalCredentials.drop 12 = a
      · simp only [scanLoop, if_pos hv]
        refine List.Pairwise.cons ?_ (ih (i0 + 1))
        intro q hq
        have := scanLoop_index_lb a rest (i0 + 1) q hq
        simp only
        omega
      · simp only [scanLoop, if_neg hv]
        exact ih (i0 + 1)

/-- C1: the credential scan returns exactly those validators whose
withdrawal-credential first byte is `1` and whose credential bytes from
position 12 on (the last 20 bytes of the 32-byte credentials) equal the
pool address bytes, in strictly ascending validator-index order, for any
validator-set size. -/
theorem findAllValidators_exact_and_sorted (a : List Nat)
    (vs : List (Option Validator)) :
    (∀ x : ValidatorWithIndex,
        x ∈ findAllValidatorsForEigenpod a vs ↔
          vs.get? x.index = some (some x.validator) ∧ credsMatch a x.validator) ∧
      (findAllValidatorsForEigenpod a vs).Pairwise
        (fun p q => p.index < q.index) := by
  constructor
  · intro x
    rw [findAllValidatorsForEigenpod, mem_scanLoop]
    constructor
    · rintro ⟨j, hj, hm, hx⟩
      refine ⟨?_, hm⟩
      simpa [hx] using hj
    · rintro ⟨hj, hm⟩
      exact ⟨x.index, hj, hm, by omega⟩
  · exact scanLoop_sorted a vs 0

/-- Concrete instantiation of the scan correctness theorem. -/
theorem findAllValidators_exact_and_sorted_witness :
    (∀ x : ValidatorWithIndex,
        x ∈ findAllValidatorsForEigenpod (List.replicate 20 5)
            [some ⟨List.replicate 48 7, 1 :: List.replicate 11 0 ++ List.replicate 20 5⟩,
             none,
             some ⟨List.replicate 48 9, 0 :: List.replicate 11 0 ++ List.replicate 20 5⟩,
             some ⟨List.replicate 48 3, 1 :: List.replicate 11 0 ++ List.replicate 20 5⟩] ↔
          [some ⟨List.replicate 48 7, 1 :: List.replicate 11 0 ++ List.replicate 20 5⟩,
             none,
             some ⟨List.replicate 48 9, 0 :: List.replicate 11 0 ++ List.replicate 20 5⟩,
             some ⟨List.replicate 48 3, 1 :: List.replicate 11 0 ++ List.replicate 20 5⟩].get?
              x.index = some (some x.validator) ∧
            credsMatch (List.replicate 20 5) x.validator) ∧
      (findAllValidatorsForEigenpod (List.replicate 20 5)
          [some ⟨List.replicate 48 7, 1 :: List.replicate 11 0 ++ List.replicate 20 5⟩,
           none,
           some ⟨List.replicate 48 9, 0 :: List.replicate 11 0 ++ List.replicate 20 5⟩,
           some ⟨List.replicate 48 3, 1 :: List.replicate 11 0 ++ List.replicate 20 5⟩]).Pairwise
        (fun p q => p.index < q.index) :=
  findAllValidators_exact_and_sorted (List.replicate 20 5) _

/-!
### MerkleProofBuilder

The generic Merkle proof builder of this repository lives outside the
CLI sources under `src/`; it is modelled from the spec over an abstract
node type `α` (a 32-byte value) and an abstract two-child hash `H`.
-/

section Merkle

variable {α : Type} [DecidableEq α] [Inhabited α]

/-- Modelled from the spec: one bottom-up hashing pass of
MerkleProofBuilder — "leaves are hashed pairwise bottom-up", interior
nodes being the hash of their two children. -/
def hashLevel (H : α → α → α) : List α → List α
  | a :: b :: rest => H a b :: hashLevel H rest
  | _ => []

/-- Modelled from the spec: the root of a depth-`n` tree over a leaf
level, obtained by `n` pairwise hashing passes. -/
def merkleRoot (H : α → α → α) : Nat → List α → α
  | 0, l => l.headD default
  | n + 1, l => merkleRoot H n (hashLevel H l)

/-- Modelled from the spec: the proof path for leaf position `i` of a
depth-`n` tree — "at each level the sibling opposite the path bit is
recorded into `path`", deepest level first. -/
def buildPath (H : α → α → α) : Nat → List α → Nat → List α
  | 0, _, _ => []
  | n + 1, l, i =>
    (if i % 2 = 1 then l.getD (i - 1) default else l.getD (i + 1) default) ::
      buildPath H n (hashLevel H l) (i / 2)

/-- The `MerkleProof` value object of the spec's data model (the `root`
field is kept external: `verify` receives the expected root). -/
structure MerkleProof (α : Type) where
  leaf : α
  path : List α
  generalizedIndex : Nat

/-- Modelled from the spec: `build(leaves, generalizedIndex)` fails
(`none`, standing for `MalformedTreeError`) unless the generalized index
is in range and the leaf count is the power of two matching its depth. -/
def build (H : α → α → α) (leaves : List α) (generalizedIndex : Nat) :
    Option (MerkleProof α) :=
  if 1 ≤ generalizedIndex ∧ leaves.length = 2 ^ Nat.log2 generalizedIndex then
    some ⟨leaves.getD (generalizedIndex - 2 ^ Nat.log2 generalizedIndex) default,
      buildPath H (Nat.log2 generalizedIndex) leaves
        (generalizedIndex - 2 ^ Nat.log2 generalizedIndex), generalizedIndex⟩
  else none

/-- Modelled from the spec: fold `path` against `leaf` using the
generalized index's bit sequence, the low bit giving the direction at
the deepest level; compares the folded value with the expected root. -/
def verifyFold (H : α → α → α) : α → List α → Nat → α → Bool
  | acc, [], _, root => decide (acc = root)
  | acc, s :: rest, gi, root =>
    verifyFold H (if gi % 2 = 1 then H s acc else H acc s) rest (gi / 2) root

/-- Modelled from the spec: `verify(proof, expectedRoot) -> bool`. -/
def verify (H : α → α → α) (p : MerkleProof α) (root : α) : Bool :=
  verifyFold H p.leaf p.path p.generalizedIndex root

lemma hashLevel_length (H : α → α → α) :
    ∀ l : List α, (hashLevel H l).length = l.length / 2
  | [] => by simp [hashLevel]
  | [a] => by simp [hashLevel]
  | a :: b :: rest => by
    simp only [hashLevel, List.length_cons, hashLevel_length H rest]
    omega

lemma hashLevel_getD (H : α → α → α) :
    ∀ (l : List α) (j : Nat), 2 * j + 1 < l.length →
      (hashLevel H l).getD j default =
        H (l.getD (2 * j) default) (l.getD (2 * j + 1) default)
  | [], j, h => by simp at h
  | [a], j, h => by
    simp only [List.length_singleton] at h
    omega
  | a :: b :: rest, 0, h => by simp [hashLevel]
  | a :: b :: rest, j + 1, h => by
    have ih := hashLevel_getD H rest j (by simp only [List.length_cons] at h; omega)
    have e1 : 2 * (j + 1) = 2 * j + 1 + 1 := by ring
    rw [e1]
    simpa [hashLevel] using ih

lemma verifyFold_buildPath (H : α → α → α) :
    ∀ (n : Nat) (l : List α) (i : Nat), l.length = 2 ^ n → i < 2 ^ n →
      verifyFold H (l.getD i default) (buildPath H n l i) (2 ^ n + i)
        (merkleRoot H n l) = true
  | 0, l, i, hl, hi => by
    have hi0 : i = 0 := Nat.lt_one_iff.mp (by simpa using hi)
    subst hi0
    obtain ⟨a, rfl⟩ := List.length_eq_one.mp (by simpa using hl)
    simp [buildPath, verifyFold, merkleRoot]
  | n + 1, l, i, hl, hi => by
    have hpow : (2 : Nat) ^ (n + 1) = 2 * 2 ^ n := by rw [pow_succ]; ring
    have hlen2 : (hashLevel H l).length = 2 ^ n := by
      rw [hashLevel_length H l, hl, hpow]
      omega
    have hmod : (2 ^ (n + 1) + i) % 2 = i % 2 := by
      rw [hpow]
      exact Nat.mul_add_mod 2 (2 ^ n) i
    have hdiv : (2 ^ (n + 1) + i) / 2 = 2 ^ n + i / 2 := by
      rw [hpow]
      exact Nat.mul_add_div (by norm_num) (2 ^ n) i
    have hi2 : i / 2 < 2 ^ n := by rw [hpow] at hi; omega
    have ih := verifyFold_buildPath H n (hashLevel H l) (i / 2) hlen2 hi2
    have hacc :
        (if (2 ^ (n + 1) + i) % 2 = 1 then
            H (if i % 2 = 1 then l.getD (i - 1) default else l.getD (i + 1) default)
              (l.getD i default)
          else
            H (l.getD i default)
              (if i % 2 = 1 then l.getD (i - 1) default else l.getD (i + 1) default)) =
          (hashLevel H l).getD (i / 2) default := by
      rw [hmod]
      by_cases hpar : i % 2 = 1
      · rw [if_pos hpar, if_pos hpar,
          hashLevel_getD H l (i / 2) (by rw [hl, hpow]; omega)]
        have e1 : 2 * (i / 2) = i - 1 := by omega
        have e2 : 2 * (i / 2) + 1 = i := by omega
        rw [e2, e1]
      · rw [if_neg hpar, if_neg hpar,
          hashLevel_getD H l (i / 2) (by rw [hl, hpow]; omega)]
        have e1 : 2 * (i / 2) = i := by omega
        have e2 : 2 * (i / 2) + 1 = i + 1 := by omega
        rw [e2, e1]
    show verifyFold H _ (_ :: _) _ _ = true
    rw [verifyFold, hacc, hdiv]
    exact ih

/-- C4: for every tree whose leaf count is a power of two and every
valid generalized index `2^n + i` into it, verifying the proof produced
by `build` against the tree's root succeeds:
`verify (build leaves gi) root = true`. -/
theorem verify_build_roundtrip (H : α → α → α) (leaves : List α) (n i : Nat)
    (hlen : leaves.length = 2 ^ n) (hi : i < 2 ^ n) :
    ∃ p, build H leaves (2 ^ n + i) = some p ∧
      verify H p (merkleRoot H n leaves) = true := by
  have hgi : Nat.log2 (2 ^ n + i) = n := by
    rw [Nat.log2_eq_log_two]
    refine Nat.log_eq_of_pow_le_of_lt_pow (Nat.le_add_right _ _) ?_
    rw [pow_succ]
    omega
  have h1 : 1 ≤ 2 ^ n + i :=
    le_trans Nat.one_le_two_pow (Nat.le_add_right _ _)
  have hsub : 2 ^ n + i - 2 ^ n = i := by omega
  refine ⟨⟨leaves.getD i default, buildPath H n leaves i, 2 ^ n + i⟩, ?_, ?_⟩
  · simp only [build, hgi, hsub]
    rw [if_pos ⟨h1, hlen⟩]
  · exact verifyFold_buildPath H n leaves i hlen hi

end Merkle

/-- A concrete injective-enough hash stand-in used to instantiate the
Merkle round-trip theorem. -/
def merkleH : Nat → Nat → Nat := fun a b => 2 * a + 3 * b + 5

/-- Concrete instantiation of the Merkle round-trip theorem: a
four-leaf tree (depth 2) and leaf position 1. -/
theorem verify_build_roundtrip_witness :
    ∃ p, build merkleH [3, 1, 4, 1] (2 ^ 2 + 1) = some p ∧
      verify merkleH p (merkleRoot merkleH 2 [3, 1, 4, 1]) = true :=
  verify_build_roundtrip merkleH [3, 1, 4, 1] 2 1 (by decide) (by decide)

/-!
### ProofBatcher / Submitter partitioning and checkpoint accounting

`core.SubmitValidatorProof` and the on-chain checkpoint state are not
among the sources under `src/`; both are modelled from the spec.
-/

section Batching

variable {β : Type}

/-- Modelled from the spec: the Submitter's partitioning — "validator
indices are split into contiguous chunks of size `batchSize`, last
chunk possibly smaller" (`core.SubmitValidatorProof`, not in src). -/
def chunks (batchSize : Nat) (l : List β) : List (List β) :=
  if h : 0 < batchSize ∧ 0 < l.length then
    l.take batchSize :: chunks batchSize (l.drop batchSize)
  else
    []
termination_by l.length
decreasing_by
  simp only [List.length_drop]
  omega

lemma chunks_nil (batchSize : Nat) : chunks batchSize ([] : List β) = [] := by
  rw [chunks]
  simp

lemma chunks_cons (batchSize : Nat) (l : List β) (hB : 0 < batchSize)
    (hl : 0 < l.length) :
    chunks batchSize l =
      l.take batchSize :: chunks batchSize (l.drop batchSize) := by
  rw [chunks, dif_pos ⟨hB, hl⟩]

lemma getLast?_cons_ne_nil {γ : Type} (a : γ) {l : List γ} (h : l ≠ []) :
    (a :: l).getLast? = l.getLast? := by
  cases l with
  | nil => exact absurd rfl h
  | cons b t => simp [List.getLast?_cons_cons]

lemma chunks_ne_nil (batchSize : Nat) (l : List β) (hB : 0 < batchSize)
    (hl : 0 < l.length) : chunks batchSize l ≠ [] := by
  rw [chunks_cons batchSize l hB hl]
  simp

lemma chunks_length (batchSize : Nat) (hB : 0 < batchSize) (l : List β) :
    (chunks batchSize l).length = (l.length + batchSize - 1) / batchSize := by
  have key : ∀ (n : Nat) (l : List β), l.length ≤ n →
      (chunks batchSize l).length = (l.length + batchSize - 1) / batchSize := by
    intro n
    induction n with
    | zero =>
      intro l hl
      have hnil : l = [] := List.length_eq_zero.mp (by omega)
      subst hnil
      simp [chunks_nil, Nat.div_eq_of_lt, hB]
    | succ n ih =>
      intro l hl
      rcases Nat.eq_zero_or_pos l.length with h0 | hpos
      · have hnil : l = [] := List.length_eq_zero.mp h0
        subst hnil
        simp [chunks_nil, Nat.div_eq_of_lt, hB]
      · rw [chunks_cons batchSize l hB hpos]
        have hdl : (l.drop batchSize).length = l.length - batchSize := by simp
        have ihd := ih (l.drop batchSize) (by omega)
        simp only [List.length_cons, ihd, hdl]
        rcases le_or_lt l.length batchSize with hle | hlt
        · have hz : l.length - batchSize = 0 := by omega
          rw [hz, Nat.div_eq_of_lt (by omega)]
          have e2 : l.length + batchSize - 1 = (l.length - 1) + batchSize := by omega
          rw [e2, Nat.add_div_right _ hB, Nat.div_eq_of_lt (by omega)]
        · have e1 : l.length - batchSize + batchSize - 1 =
              (l.length - batchSize - 1) + batchSize := by omega
          have e2 : l.length + batchSize - 1 = (l.length - 1) + batchSize := by omega
          have e3 : l.length - 1 = (l.length - batchSize - 1) + batchSize := by omega
          rw [e1, e2, e3, Nat.add_div_right _ hB, Nat.add_div_right _ hB,
            Nat.add_div_right _ hB]
  exact key l.length l le_rfl

lemma chunks_flatten (batchSize : Nat) (hB : 0 < batchSize) (l : List β) :
    (chunks batchSize l).flatten = l := by
  have key : ∀ (n : Nat) (l : List β), l.length ≤ n →
      (chunks batchSize l).flatten = l := by
    intro n
    induction n with
    | zero =>
      intro l hl
      have hnil : l = [] := List.length_eq_zero.mp (by omega)
      subst hnil
      simp [chunks_nil]
    | succ n ih =>
      intro l hl
      rcases Nat.eq_zero_or_pos l.length with h0 | hpos
      · have hnil : l = [] := List.length_eq_zero.mp h0
        subst hnil
        simp [chunks_nil]
      · rw [chunks_cons batchSize l hB hpos]
        have ihd := ih (l.drop batchSize) (by simp; omega)
        simp [ihd]
  exact key l.length l le_rfl

lemma chunks_dropLast_length (batchSize : Nat) (hB : 0 < batchSize) (l : List β) :
    ∀ c ∈ (chunks batchSize l).dropLast, c.length = batchSize := by
  have key : ∀ (n : Nat) (l : List β), l.length ≤ n →
      ∀ c ∈ (chunks batchSize l).dropLast, c.length = batchSize := by
    intro n
    induction n with
    | zero =>
      intro l hl
      have hnil : l = [] := List.length_eq_zero.mp (by omega)
      subst hnil
      simp [chunks_nil]
    | succ n ih =>
      intro l hl
      rcases Nat.eq_zero_or_pos l.length with h0 | hpos
      · have hnil : l = [] := List.length_eq_zero.mp h0
        subst hnil
        simp [chunks_nil]
      · rw [chunks_cons batchSize l hB hpos]
        rcases le_or_lt l.length batchSize with hle | hlt
        · have hd : l.drop batchSize = [] := by
            apply List.length_eq_zero.mp
            simp
            omega
          simp [hd, chunks_nil]
        · have hdpos : 0 < (l.drop batchSize).length := by simp; omega
          have htail := chunks_ne_nil batchSize (l.drop batchSize) hB hdpos
          intro c hc
          rw [List.dropLast_cons_of_ne_nil htail] at hc
          rcases List.mem_cons.mp hc with rfl | hc
          · simp [List.length_take]
            omega
          · exact ih (l.drop batchSize) (by simp; omega) c hc
  exact key l.length l le_rfl

lemma chunks_getLast_length (batchSize : Nat) (hB : 0 < batchSize) (l : List β) :
    ∀ c, (chunks batchSize l).getLast? = some c →
      c.length = l.length -
        batchSize * ((l.length + batchSize - 1) / batchSize - 1) := by
  have key : ∀ (n : Nat) (l : List β), l.length ≤ n →
      ∀ c, (chunks batchSize l).getLast? = some c →
        c.length = l.length -
          batchSize * ((l.length + batchSize - 1) / batchSize - 1) := by
    intro n
    induction n with
    | zero =>
      intro l hl
      have hnil : l = [] := List.length_eq_zero.mp (by omega)
      subst hnil
      simp [chunks_nil]
    | succ n ih =>
      intro l hl
      rcases Nat.eq_zero_or_pos l.length with h0 | hpos
      · have hnil : l = [] := List.length_eq_zero.mp h0
        subst hnil
        simp [chunks_nil]
      · rw [chunks_cons batchSize l hB hpos]
        rcases le_or_lt l.length batchSize with hle | hlt
        · have hd : l.drop batchSize = [] := by
            apply List.length_eq_zero.mp
            simp
            omega
          intro c hc
          rw [hd, chunks_nil] at hc
          simp at hc
          subst hc
          have hceil : (l.length + batchSize - 1) / batchSize = 1 := by
            have e2 : l.length + batchSize - 1 = (l.length - 1) + batchSize := by
              omega
            rw [e2, Nat.add_div_right _ hB, Nat.div_eq_of_lt (by omega)]
          rw [hceil]
          simp [List.length_take]
          omega
        · have hdpos : 0 < (l.drop batchSize).length := by simp; omega
          have htail := chunks_ne_nil batchSize (l.drop batchSize) hB hdpos
          intro c hc
          rw [getLast?_cons_ne_nil _ htail] at hc
          have ihd := ih (l.drop batchSize) (by simp; omega) c hc
          have hdl : (l.drop batchSize).length = l.length - batchSize := by simp
          rw [hdl] at ihd
          have e1 : l.length - batchSize + batchSize - 1 =
              (l.length - batchSize - 1) + batchSize := by omega
          have e2 : l.length + batchSize - 1 = (l.length - 1) + batchSize := by omega
          have e3 : l.length - 1 = (l.length - batchSize - 1) + batchSize := by omega
          rw [e1, Nat.add_div_right _ hB] at ihd
          rw [e2, e3, Nat.add_div_right _ hB, Nat.add_div_right _ hB]
          have hbd : batchSize * ((l.length - batchSize - 1) / batchSize) ≤
              l.length - batchSize - 1 := by
            rw [Nat.mul_comm]
            exact Nat.div_mul_le_self _ _
          have hm1 : batchSize * ((l.length - batchSize - 1) / batchSize + 1 - 1) =
              batchSize * ((l.length - batchSize - 1) / batchSize) := by
            congr 1
          have hm2 : batchSize * ((l.length - batchSize - 1) / batchSize + 1 + 1 - 1) =
              batchSize * ((l.length - batchSize - 1) / batchSize) + batchSize := by
            have e4 : (l.length - batchSize - 1) / batchSize + 1 + 1 - 1 =
                ((l.length - batchSize - 1) / batchSize) + 1 := rfl
            rw [e4, Nat.mul_succ]
          rw [hm1] at ihd
          rw [hm2, ihd]
          omega
  exact key l.length l le_rfl

/-- C6: for `N` proofs and batch size `B ≥ 1`, the partitioning produces
exactly `ceil(N/B)` contiguous chunks in order (their concatenation is
the input), every chunk except possibly the last has exactly `B`
elements, and the last has `N - B*(ceil(N/B)-1)` elements. -/
theorem chunks_partition (batchSize : Nat) (hB : 1 ≤ batchSize) (l : List β) :
    (chunks batchSize l).length = (l.length + batchSize - 1) / batchSize ∧
      (chunks batchSize l).flatten = l ∧
      (∀ c ∈ (chunks batchSize l).dropLast, c.length = batchSize) ∧
      (∀ c, (chunks batchSize l).getLast? = some c →
        c.length = l.length -
          batchSize * ((l.length + batchSize - 1) / batchSize - 1)) :=
  ⟨chunks_length batchSize hB l, chunks_flatten batchSize hB l,
    chunks_dropLast_length batchSize hB l, chunks_getLast_length batchSize hB l⟩

/-- Concrete instantiation of the partitioning theorem: seven validator
indices, batch size three. -/
theorem chunks_partition_witness :
    (chunks 3 [10, 11, 12, 13, 14, 15, 16]).length =
        (([10, 11, 12, 13, 14, 15, 16] : List Nat).length + 3 - 1) / 3 ∧
      (chunks 3 [10, 11, 12, 13, 14, 15, 16]).flatten =
        [10, 11, 12, 13, 14, 15, 16] ∧
      (∀ c ∈ (chunks 3 [10, 11, 12, 13, 14, 15, 16]).dropLast, c.length = 3) ∧
      (∀ c, (chunks 3 [10, 11, 12, 13, 14, 15, 16]).getLast? = some c →
        c.length = ([10, 11, 12, 13, 14, 15, 16] : List Nat).length -
          3 * ((([10, 11, 12, 13, 14, 15, 16] : List Nat).length + 3 - 1) / 3 - 1)) :=
  chunks_partition 3 (by decide) [10, 11, 12, 13, 14, 15, 16]

end Batching

/-!
### Checkpoint accounting
-/

/-- Modelled from the spec: the active checkpoint's on-chain state (the
pod contract is outside this repository's sources). `proofsRemaining` is
embedded as an integer so that non-negativity is a statement rather than
a typing artifact. -/
structure Checkpoint where
  startedAtTimestamp : Nat
  beaconBlockRoot : List Nat
  proofsRemaining : Int
  pendingSharesGwei : Int

/-- Modelled from the spec: one successful submission of the balance
proofs of `k` validators decrements `proofsRemaining` by exactly `k`. -/
def submitProofBatch (c : Checkpoint) (k : Nat) : Checkpoint :=
  { c with proofsRemaining := c.proofsRemaining - k }

/-- Modelled from the spec: the strictly sequential submission of the
batches, in order. -/
def runSubmissions (c : Checkpoint) (batches : List (List Nat)) : Checkpoint :=
  batches.foldl (fun st b => submitProofBatch st b.length) c

/-- The checkpoint states reached along a submission sequence, starting
state included. -/
def statesAlong (c : Checkpoint) (batches : List (List Nat)) : List Checkpoint :=
  batches.scanl (fun st b => submitProofBatch st b.length) c

/-- Total number of validators across a batch list. -/
def sumLens (batches : List (List Nat)) : Nat :=
  (batches.map List.length).sum

lemma runSubmissions_proofsRemaining :
    ∀ (batches : List (List Nat)) (c : Checkpoint),
      (runSubmissions c batches).proofsRemaining =
        c.proofsRemaining - (sumLens batches : Int)
  | [], c => by simp [runSubmissions, sumLens]
  | b :: bs, c => by
    have ih := runSubmissions_proofsRemaining bs (submitProofBatch c b.length)
    simp only [runSubmissions, List.foldl_cons] at ih ⊢
    rw [ih]
    simp only [submitProofBatch, sumLens, List.map_cons, List.sum_cons]
    push_cast
    ring

lemma mem_statesAlong_lb :
    ∀ (batches : List (List Nat)) (c : Checkpoint) (s : Checkpoint),
      s ∈ statesAlong c batches →
        c.proofsRemaining - (sumLens batches : Int) ≤ s.proofsRemaining
  | [], c, s => by
    simp only [statesAlong, List.scanl, List.mem_singleton, sumLens]
    rintro rfl
    simp
  | b :: bs, c, s => by
    simp only [statesAlong, List.scanl, List.mem_cons]
    rintro (rfl | hs)
    · have : (0 : Int) ≤ (sumLens (b :: bs) : Int) := by positivity
      omega
    · have ih := mem_statesAlong_lb bs (submitProofBatch c b.length) s hs
      simp only [submitProofBatch] at ih
      have he : (sumLens (b :: bs) : Int) = (b.length : Int) + (sumLens bs : Int) := by
        simp [sumLens]
      omega

/-- C5: each submission decrements `proofsRemaining` by exactly the
number of validators in it; running all batches produced by the
partitioner over the targeted validators brings it to exactly 0; and no
reachable intermediate state has a negative `proofsRemaining`. -/
theorem checkpoint_proofsRemaining_monotone (c : Checkpoint)
    (targets : List Nat) (batchSize : Nat) (hB : 1 ≤ batchSize)
    (hstart : c.proofsRemaining = targets.length) :
    (∀ (s : Checkpoint) (k : Nat),
        (submitProofBatch s k).proofsRemaining = s.proofsRemaining - k) ∧
      (runSubmissions c (chunks batchSize targets)).proofsRemaining = 0 ∧
      ∀ s ∈ statesAlong c (chunks batchSize targets), 0 ≤ s.proofsRemaining := by
  have hsum : sumLens (chunks batchSize targets) = targets.length := by
    have hflat := chunks_flatten batchSize hB targets
    calc sumLens (chunks batchSize targets)
        = (chunks batchSize targets).flatten.length := by
          simp [sumLens, List.length_flatten]
      _ = targets.length := by rw [hflat]
  refine ⟨fun s k => rfl, ?_, ?_⟩
  · rw [runSubmissions_proofsRemaining, hsum, hstart]
    simp
  · intro s hs
    have := mem_statesAlong_lb (chunks batchSize targets) c s hs
    rw [hsum, hstart] at this
    omega

/-- Concrete instantiation of the checkpoint accounting theorem: three
targeted validators submitted with batch size two. -/
theorem checkpoint_proofsRemaining_monotone_witness :
    (∀ (s : Checkpoint) (k : Nat),
        (submitProofBatch s k).proofsRemaining = s.proofsRemaining - k) ∧
      (runSubmissions ⟨0, [], 3, 0⟩ (chunks 2 [7, 8, 9])).proofsRemaining = 0 ∧
      ∀ s ∈ statesAlong ⟨0, [], 3, 0⟩ (chunks 2 [7, 8, 9]),
        0 ≤ s.proofsRemaining :=
  checkpoint_proofsRemaining_monotone ⟨0, [], 3, 0⟩ [7, 8, 9] 2 (by decide)
    (by decide)

/-!
### Status reporting
-/

/-- The active-checkpoint entry read by the status action
(src/cli/main.go): start time, pending shares in gwei, proofs
remaining. -/
structure CheckpointStatus where
  startedAt : Nat
  pendingSharesGwei : ℚ
  proofsRemaining : Int

/-- The part of the eigenpod status the status action's share
computation reads (src/cli/main.go). -/
structure EigenpodStatus where
  currentTotalSharesETH : ℚ
  totalSharesAfterCheckpointETH : ℚ
  activeCheckpoint : Option CheckpointStatus

/-- Modelled from the spec: `gweiToEther` (defined in cli/core, not
under src) — division by 10^9, over exact rationals. -/
def gweiToEther (g : ℚ) : ℚ := g / 1000000000

/-- The projected-share computation of the status action
(src/cli/main.go): with an active checkpoint,
`deltaETH = endSharesETH - currentTotalSharesETH` where `endSharesETH`
is the pending gwei shares converted to ether; with none,
`delta = endEther - startEther`. The action only reads the status, so it
is embedded state-passing style, returning the status it was given. -/
def statusAction (s : EigenpodStatus) : ℚ × EigenpodStatus :=
  match s.activeCheckpoint with
  | some cp =>
    let endSharesETH := gweiToEther cp.pendingSharesGwei
    let deltaETH := endSharesETH - s.currentTotalSharesETH
    (deltaETH, s)
  | none =>
    let startEther := s.currentTotalSharesETH
    let endEther := s.totalSharesAfterCheckpointETH
    let delta := endEther - startEther
    (delta, s)

/-- The spec's wording of the projected share delta:
`pendingSharesGwei` as ether minus current total shares as ether when a
checkpoint is active, `sharesAfterCheckpoint - currentShares` when
none is. -/
def specProjectedShareDelta (s : EigenpodStatus) : ℚ :=
  match s.activeCheckpoint with
  | some cp => gweiToEther cp.pendingSharesGwei - s.currentTotalSharesETH
  | none => s.totalSharesAfterCheckpointETH - s.currentTotalSharesETH

/-- C7: the status action computes exactly the spec's projected share
delta in both the active-checkpoint and no-checkpoint cases, and it
returns the on-chain state it was given unchanged (read-only). -/
theorem statusAction_delta_and_readonly (s : EigenpodStatus) :
    (statusAction s).1 = specProjectedShareDelta s ∧ (statusAction s).2 = s := by
  cases h : s.activeCheckpoint <;>
    simp [statusAction, specProjectedShareDelta, h]

/-!
### The credentials flows
-/

/-- The externally observable events of one credentials run. -/
inductive Event where
  | getClients
  | generateValidatorProof
  | submitProofs
  | panicked (msg : String)
  | cleanReturn
  deriving DecidableEq

/-- Which events stand for network activity: dialing the execution and
beacon clients, fetching beacon state to build proofs, and submitting
transactions. -/
def Event.isNetworkCall : Event → Bool
  | .getClients => true
  | .generateValidatorProof => true
  | .submitProofs => true
  | _ => false

/-- The message of the simulate+sender validation panic
(src/unnamed/part_001). -/
def printCalldataSenderMsg : String :=
  "if using --print-calldata, please do not specify a --sender."

/-- The message of the zero-matching-validators panic
(src/unnamed/part_001). -/
def noInactiveValidatorsMsg : String := "no inactive validators"

/-- Whether an event is the simulate+sender validation error. -/
def Event.isValidationError : Event → Bool
  | .panicked m => m == printCalldataSenderMsg
  | _ => false

/-- The fields of `TCredentialCommandArgs` the command's control flow
reads. `specificValidator` is a `uint64`; its "unset" sentinel is
`math.MaxUint64`. -/
structure TCredentialCommandArgs where
  simulateTransaction : Bool
  sender : String
  specificValidator : Nat
  batchSize : Nat

/-- `math.MaxUint64`. -/
def UINT64_MAX : Nat := 2 ^ 64 - 1

/-- The specific-validator resolution of `CredentialsCommand`
(src/unnamed/part_001): the filter index stays `nil` unless the
requested value differs from both `math.MaxUint64` and `0`. -/
def specificValidatorIndexOf (args : TCredentialCommandArgs) : Option Nat :=
  if args.specificValidator ≠ UINT64_MAX ∧ args.specificValidator ≠ 0 then
    some args.specificValidator
  else
    none

/-- The environment of one run: what `core.GenerateValidatorProof`
returns (as the proven validator indices) for a given specific-index
filter; `none` embeds a `nil` proofs result (zero matching
validators). -/
structure CredEnv where
  genProofs : Option Nat → Option (List Nat)

/-- The event trace of `CredentialsCommand` (src/unnamed/part_001): the
clients are connected first; then the simulate+sender validation check
panics if both are set; then proofs are generated (a `nil` result
panics with "no inactive validators"); then, when a sender is set or
simulation was requested, the proofs are submitted. -/
def credentialsCommandTrace (env : CredEnv) (args : TCredentialCommandArgs) :
    List Event :=
  [Event.getClients] ++
    (if args.simulateTransaction ∧ 0 < args.sender.length then
      [Event.panicked printCalldataSenderMsg]
    else
      [Event.generateValidatorProof] ++
        match env.genProofs (specificValidatorIndexOf args) with
        | none => [Event.panicked noInactiveValidatorsMsg]
        | some _ =>
          (if args.sender.length ≠ 0 ∨ args.simulateTransaction then
            [Event.submitProofs]
          else
            []) ++ [Event.cleanReturn])

/-- The event trace of the `credentials` action of src/cli/main.go:
clients, proof generation, a clean `return nil` when the proofs come
back `nil`, otherwise output and (with an owner key set) submission. -/
def mainCredentialsTrace (proofsResult : Option (List Nat))
    (ownerSet : Bool) : List Event :=
  [Event.getClients, Event.generateValidatorProof] ++
    match proofsResult with
    | none => [Event.cleanReturn]
    | some _ =>
      (if ownerSet then [Event.submitProofs] else []) ++ [Event.cleanReturn]

/-- An environment whose proof generation always succeeds. -/
def credEnvSome : CredEnv := ⟨fun _ => some [2]⟩

/-- An environment whose proof generation returns `nil` (zero matching
validators). -/
def credEnvNone : CredEnv := ⟨fun _ => none⟩

/-- Arguments with both simulate-only mode and a sender set. -/
def argsSimSender : TCredentialCommandArgs :=
  { simulateTransaction := true, sender := "0xabc",
    specificValidator := UINT64_MAX, batchSize := 40 }

/-- Arguments with neither simulate-only mode nor a sender. -/
def argsPlain : TCredentialCommandArgs :=
  { simulateTransaction := false, sender := "",
    specificValidator := UINT64_MAX, batchSize := 40 }

/-- C2 counterexample: with simulate-only and a sender both set the run
does raise the validation error, but the clients-connection network
call precedes it, so the error is not raised before any network call:
the prefix of the trace before the validation error contains a network
call. -/
theorem credentials_validation_not_before_network :
    credentialsCommandTrace credEnvSome argsSimSender =
        [Event.getClients, Event.panicked printCalldataSenderMsg] ∧
      ((credentialsCommandTrace credEnvSome argsSimSender).takeWhile
          (fun e => !e.isValidationError)).all
        (fun e => !e.isNetworkCall) = false := by
  constructor
  · rfl
  · rfl

/-- C2 amended: with both a sender and simulate-only set, the run
raises the validation error and stops — before any proof generation or
submission, but after the single clients-connection network call, which
always comes first. -/
theorem credentials_validation_order (env : CredEnv)
    (args : TCredentialCommandArgs) (hsim : args.simulateTransaction = true)
    (hsender : 0 < args.sender.length) :
    credentialsCommandTrace env args =
      [Event.getClients, Event.panicked printCalldataSenderMsg] := by
  simp [credentialsCommandTrace, hsim, hsender]

/-- Concrete instantiation of the amended validation-order theorem. -/
theorem credentials_validation_order_witness :
    credentialsCommandTrace credEnvSome argsSimSender =
      [Event.getClients, Event.panicked printCalldataSenderMsg] :=
  credentials_validation_order credEnvSome argsSimSender rfl (by decide)

/-- C3 counterexample: in `CredentialsCommand` a zero-match (nil
proofs) run ends in a panic reporting "no inactive validators" rather
than a clean return. -/
theorem credentials_zero_match_panics :
    credentialsCommandTrace credEnvNone argsPlain =
        [Event.getClients, Event.generateValidatorProof,
          Event.panicked noInactiveValidatorsMsg] ∧
      Event.cleanReturn ∉ credentialsCommandTrace credEnvNone argsPlain := by
  constructor
  · rfl
  · decide

/-- C3 amended: the `credentials` action of src/cli/main.go treats zero
matching validators as nothing-to-prove and returns cleanly with no
error, while `CredentialsCommand` (src/unnamed/part_001) panics with
"no inactive validators". -/
theorem credentials_zero_match_behavior (ownerSet : Bool) (env : CredEnv)
    (args : TCredentialCommandArgs)
    (hval : ¬ (args.simulateTransaction ∧ 0 < args.sender.length))
    (hzero : env.genProofs (specificValidatorIndexOf args) = none) :
    mainCredentialsTrace none ownerSet =
        [Event.getClients, Event.generateValidatorProof, Event.cleanReturn] ∧
      credentialsCommandTrace env args =
        [Event.getClients, Event.generateValidatorProof,
          Event.panicked noInactiveValidatorsMsg] := by
  constructor
  · rfl
  · simp [credentialsCommandTrace, hval, hzero]

/-- Concrete instantiation of the amended zero-match theorem. -/
theorem credentials_zero_match_behavior_witness :
    mainCredentialsTrace none false =
        [Event.getClients, Event.generateValidatorProof, Event.cleanReturn] ∧
      credentialsCommandTrace credEnvNone argsPlain =
        [Event.getClients, Event.generateValidatorProof,
          Event.panicked noInactiveValidatorsMsg] :=
  credentials_zero_match_behavior false credEnvNone argsPlain (by decide) rfl

/-!
### Validator selection with a specific index
-/

/-- The indices of the validators the credential scan matches. -/
def matchingIndices (addr : List Nat) (vs : List (Option Validator)) :
    List Nat :=
  (findAllValidatorsForEigenpod addr vs).map (fun x => x.index)

/-- Outcome of the validator selection. -/
inductive SelectResult where
  | ok (indices : List Nat)
  | validatorNotFound
  deriving DecidableEq

/-- Modelled from the spec: the validator selection inside
`core.GenerateValidatorProof` (not under src) — the credential scan,
then, when a specific index is given, the result filtered to that
single index, failing with `ValidatorNotFoundError` when it is absent
or non-matching. -/
def selectValidators (addr : List Nat) (vs : List (Option Validator))
    (specific : Option Nat) : SelectResult :=
  match specific with
  | none => SelectResult.ok (matchingIndices addr vs)
  | some i =>
    if i ∈ matchingIndices addr vs then SelectResult.ok [i]
    else SelectResult.validatorNotFound

/-- The whole credentials-flow selection: `CredentialsCommand` resolves
the requested index (0 and `2^64-1` meaning "none") and hands it to
the generator. -/
def credentialsSelect (addr : List Nat) (vs : List (Option Validator))
    (args : TCredentialCommandArgs) : SelectResult :=
  selectValidators addr vs (specificValidatorIndexOf args)

/-- A 20-byte pool address used in concrete runs. -/
def addrX : List Nat := List.replicate 20 5

/-- 32-byte withdrawal credentials matching `addrX` with prefix 1. -/
def credsX : List Nat := 1 :: (List.replicate 11 0 ++ List.replicate 20 5)

/-- Two validators, both matching `addrX`. -/
def vsX : List (Option Validator) :=
  [some ⟨List.replicate 48 7, credsX⟩, some ⟨List.replicate 48 8, credsX⟩]

/-- Arguments requesting specific validator index 0. -/
def argsSpecificZero : TCredentialCommandArgs :=
  { simulateTransaction := false, sender := "",
    specificValidator := 0, batchSize := 40 }

/-- Arguments requesting specific validator index 1. -/
def argsSpecificOne : TCredentialCommandArgs :=
  { simulateTransaction := false, sender := "",
    specificValidator := 1, batchSize := 40 }

/-- C8 counterexample: providing specific validator index 0 does not
filter the result to that single index — both matching validators come
back. -/
theorem credentialsSelect_zero_not_filtered :
    argsSpecificZero.specificValidator = 0 ∧
      credentialsSelect addrX vsX argsSpecificZero = SelectResult.ok [0, 1] ∧
      credentialsSelect addrX vsX argsSpecificZero ≠ SelectResult.ok [0] := by
  refine ⟨rfl, by decide, by decide⟩

/-- C8 amended: when the requested index is neither 0 nor `2^64-1`, the
credentials flow filters to exactly that single index, and fails with
`ValidatorNotFoundError` when the index is absent or non-matching. -/
theorem credentialsSelect_specific (addr : List Nat)
    (vs : List (Option Validator)) (args : TCredentialCommandArgs)
    (h0 : args.specificValidator ≠ 0)
    (hmax : args.specificValidator ≠ UINT64_MAX) :
    credentialsSelect addr vs args =
      (if args.specificValidator ∈ matchingIndices addr vs then
        SelectResult.ok [args.specificValidator]
      else
        SelectResult.validatorNotFound) := by
  simp only [credentialsSelect, specificValidatorIndexOf]
  rw [if_pos ⟨hmax, h0⟩]
  rfl

/-- Concrete instantiation of the amended specific-index theorem. -/
theorem credentialsSelect_specific_witness :
    credentialsSelect addrX vsX argsSpecificOne =
      (if argsSpecificOne.specificValidator ∈ matchingIndices addrX vsX then
        SelectResult.ok [argsSpecificOne.specificValidator]
      else
        SelectResult.validatorNotFound) :=
  credentialsSelect_specific addrX vsX argsSpecificOne (by decide) (by decide)

/-- C9: a requested index of 0 (or the sentinel `2^64-1`) is treated as
if no specific index were provided: the filter stays `none` and all
eligible validators are selected, so index 0 is never singled out. -/
theorem credentialsSelect_sentinel (args : TCredentialCommandArgs)
    (h : args.specificValidator = 0 ∨ args.specificValidator = UINT64_MAX) :
    specificValidatorIndexOf args = none ∧
      ∀ (addr : List Nat) (vs : List (Option Validator)),
        credentialsSelect addr vs args =
          SelectResult.ok (matchingIndices addr vs) := by
  have hnone : specificValidatorIndexOf args = none := by
    rcases h with h | h <;> simp [specificValidatorIndexOf, h]
  refine ⟨hnone, fun addr vs => ?_⟩
  simp only [credentialsSelect, hnone]
  rfl

/-- Concrete instantiation of the sentinel-index theorem at index 0. -/
theorem credentialsSelect_sentinel_witness :
    specificValidatorIndexOf argsSpecificZero = none ∧
      ∀ (addr : List Nat) (vs : List (Option Validator)),
        credentialsSelect addr vs argsSpecificZero =
          SelectResult.ok (matchingIndices addr vs) :=
  credentialsSelect_sentinel argsSpecificZero (Or.inl rfl)

/-!
### On-chain validator-info lookup keys
-/

/-- The 16-byte zero pad written literally in `getOnchainValidatorInfo`
(src/cli/main.go). -/
def zeroes : List Nat :=
  [0, 0, 0, 0, 0, 0, 0, 0, 0, 0, 0, 0, 0, 0, 0, 0]

/-- The per-validator hash input of `getOnchainValidatorInfo`
(src/cli/main.go): the public key bytes with the 16 zero bytes
appended before hashing. -/
def pubKeyHashInput (publicKey : List Nat) : List Nat := publicKey ++ zeroes

/-- The lookup keys computed by the loop of `getOnchainValidatorInfo`,
one per validator, with `sha256.Sum256` abstracted as `H`. -/
def getOnchainValidatorInfoKeys (H : List Nat → List Nat)
    (allValidators : List ValidatorWithIndex) : List (List Nat) :=
  allValidators.map (fun v => H (pubKeyHashInput v.validator.publicKey))

/-- C10: every lookup key is the hash of the validator's public key
right-padded with exactly 16 zero bytes, and for a 48-byte public key
the hashed buffer is 64 bytes long (32-byte aligned). -/
theorem validatorInfoKeys_shape (H : List Nat → List Nat)
    (vs : List ValidatorWithIndex) :
    getOnchainValidatorInfoKeys H vs =
        vs.map (fun v => H (v.validator.publicKey ++ List.replicate 16 0)) ∧
      ∀ v ∈ vs, v.validator.publicKey.length = 48 →
        (pubKeyHashInput v.validator.publicKey).length = 64 := by
  constructor
  · have hz : zeroes = List.replicate 16 0 := rfl
    simp [getOnchainValidatorInfoKeys, pubKeyHashInput, hz]
  · intro v hv h48
    simp [pubKeyHashInput, zeroes, h48]

/-- Concrete instantiation of the lookup-key theorem. -/
theorem validatorInfoKeys_shape_witness :
    getOnchainValidatorInfoKeys id [⟨⟨List.replicate 48 7, credsX⟩, 0⟩] =
        [(⟨⟨List.replicate 48 7, credsX⟩, 0⟩ : ValidatorWithIndex)].map
          (fun v => id (v.validator.publicKey ++ List.replicate 16 0)) ∧
      ∀ v ∈ [(⟨⟨List.replicate 48 7, credsX⟩, 0⟩ : ValidatorWithIndex)],
        v.validator.publicKey.length = 48 →
          (pubKeyHashInput v.validator.publicKey).length = 64 :=
  validatorInfoKeys_shape id [⟨⟨List.replicate 48 7, credsX⟩, 0⟩]

end EigenpodProofs
